import Mathlib

/-!
Shallow embedding of the advance_store repository: the full variant
(src/include/advance_store.hpp, class adv::Store backed by std::vector) and
the minimal variant (src/include/advance_store_mini.hpp).  A store is
modelled as its element list together with the backing vector's capacity.
Operations that throw are modelled with Except over the error taxonomy of
class adv::Errors; const member functions become pure functions.
-/

namespace AdvStore

/-- Error kinds raised by the class adv::Errors in advance_store.hpp:
throw_out_of_range, throw_invalid_argument, throw_runtime_error. -/
inductive Err where
| outOfRange
| invalidArgument
| runtimeError
deriving DecidableEq, Repr

/-- Model of adv::Store<T>: the element sequence held in the backing
std::vector m_data, together with the vector's reserved capacity. -/
structure Store (α : Type) where
data : List α
cap : Nat
deriving DecidableEq, Repr

/-- Capacity after a std::vector reallocation that must hold need
elements: unchanged if it already fits, otherwise geometric growth
max(2*cap, need) (the usual libstdc++ policy; the spec leaves the growth
strategy free subject to capacity >= size). -/
def growCap (cap need : Nat) : Nat :=
if need ≤ cap then cap else Nat.max (2 * cap) need

namespace Store

/-- Default constructor Store(): empty vector, zero capacity. -/
def empty {α : Type} : Store α :=
⟨[], 0⟩

/-- Constructor Store(size_t size): size default-valued elements. -/
def ofSize {α : Type} [Inhabited α] (n : Nat) : Store α :=
⟨List.replicate n default, n⟩

/-- Constructor Store(initializer_list): the listed elements, capacity
equal to the element count. -/
def ofList {α : Type} (l : List α) : Store α :=
⟨l, l.length⟩

/-- Member push_back(const T&): appends one element at the end, growing
capacity when full. -/
def push_back {α : Type} (s : Store α) (v : α) : Store α :=
⟨s.data ++ [v], growCap s.cap (s.data.length + 1)⟩

/-- Member push_front(const T&): m_data.insert(m_data.begin(), value). -/
def push_front {α : Type} (s : Store α) (v : α) : Store α :=
⟨v :: s.data, growCap s.cap (s.data.length + 1)⟩

end Store

/-- Result store built by a loop that starts from a default-constructed
Store and push_backs each element in turn (the construction pattern of
filter and all to_* conversions in advance_store.hpp). -/
def buildByPush {α : Type} (l : List α) : Store α :=
l.foldl (fun acc v => acc.push_back v) Store.empty

namespace Full

/-- Member at(size_t pos) of the full variant: throws out_of_range when
pos >= m_data.size(), otherwise returns m_data[pos]. -/
def at' {α : Type} (s : Store α) (pos : Nat) : Except Err α :=
if h : pos < s.data.length then Except.ok (s.data.get ⟨pos, h⟩)
else Except.error Err.outOfRange

/-- Member front() of the full variant: throws out_of_range when empty,
otherwise returns m_data.front(). -/
def front {α : Type} (s : Store α) : Except Err α :=
match s.data with
| [] => Except.error Err.outOfRange
| x :: _ => Except.ok x

/-- Member back() of the full variant: throws out_of_range when empty,
otherwise returns m_data.back(). -/
def back {α : Type} (s : Store α) : Except Err α :=
match s.data with
| [] => Except.error Err.outOfRange
| x :: xs => Except.ok ((x :: xs).getLast (by simp))

/-- Member mid() of the full variant: throws out_of_range when empty,
otherwise returns m_data[m_data.size() / 2]. -/
def mid {α : Type} (s : Store α) : Except Err α :=
if h : s.data.length = 0 then Except.error Err.outOfRange
else Except.ok (s.data.get ⟨s.data.length / 2,
  Nat.div_lt_self (Nat.pos_of_ne_zero h) (by decide)⟩)

/-- Member max() of the full variant: throws out_of_range when empty,
otherwise returns *std::max_element(begin, end), the first maximal
element (the running best is replaced only when strictly exceeded). -/
def max {α : Type} [LinearOrder α] (s : Store α) : Except Err α :=
match s.data with
| [] => Except.error Err.outOfRange
| x :: xs => Except.ok (xs.foldl (fun b v => if b < v then v else b) x)

/-- Member min() of the full variant: throws out_of_range when empty,
otherwise returns *std::min_element(begin, end), the first minimal
element. -/
def min {α : Type} [LinearOrder α] (s : Store α) : Except Err α :=
match s.data with
| [] => Except.error Err.outOfRange
| x :: xs => Except.ok (xs.foldl (fun b v => if v < b then v else b) x)

/-- Member pop_front() of the full variant: throws out_of_range when
empty, otherwise erases the first element. -/
def pop_front {α : Type} (s : Store α) : Except Err (Store α) :=
match s.data with
| [] => Except.error Err.outOfRange
| _ :: xs => Except.ok ⟨xs, s.cap⟩

/-- Member pop_back() of the full variant: throws out_of_range when
empty, otherwise removes the last element. -/
def pop_back {α : Type} (s : Store α) : Except Err (Store α) :=
match s.data with
| [] => Except.error Err.outOfRange
| _ :: _ => Except.ok ⟨s.data.dropLast, s.cap⟩

/-- Member insert(size_t pos, const T&) of the full variant: throws
out_of_range when pos > m_data.size(), otherwise inserts before pos. -/
def insert {α : Type} (s : Store α) (pos : Nat) (v : α) : Except Err (Store α) :=
if s.data.length < pos then Except.error Err.outOfRange
else Except.ok ⟨s.data.take pos ++ v :: s.data.drop pos,
                growCap s.cap (s.data.length + 1)⟩

/-- Member remove_at(size_t pos) of the full variant: throws out_of_range
when pos >= m_data.size(), otherwise erases the element at pos. -/
def remove_at {α : Type} (s : Store α) (pos : Nat) : Except Err (Store α) :=
if pos < s.data.length then Except.ok ⟨s.data.eraseIdx pos, s.cap⟩
else Except.error Err.outOfRange

/-- Member replace_at(size_t pos, const T&) of the full variant: throws
out_of_range when pos >= m_data.size(), otherwise overwrites m_data[pos]. -/
def replace_at {α : Type} (s : Store α) (pos : Nat) (v : α) : Except Err (Store α) :=
if pos < s.data.length then Except.ok ⟨s.data.set pos v, s.cap⟩
else Except.error Err.outOfRange

/-- Member replace_all(old, new): std::replace over the whole vector. -/
def replace_all {α : Type} [DecidableEq α] (s : Store α) (ov nv : α) : Store α :=
⟨s.data.map (fun x => if x = ov then nv else x), s.cap⟩

/-- Member fill(value): std::fill over the whole vector. -/
def fill {α : Type} (s : Store α) (v : α) : Store α :=
⟨s.data.map (fun _ => v), s.cap⟩

/-- Member reverse(): std::reverse in place. -/
def reverse {α : Type} (s : Store α) : Store α :=
⟨s.data.reverse, s.cap⟩

/-- Member sort(bool ascending): std::sort under the natural order when
ascending, under std::greater<T> otherwise.  On a linear order the sorted
permutation is unique as a value sequence, so insertion sort is a faithful
value-level model of the unstable std::sort. -/
def sort {α : Type} [LinearOrder α] (s : Store α) (ascending : Bool) : Store α :=
if ascending then ⟨s.data.insertionSort (fun a b => a ≤ b), s.cap⟩
else ⟨s.data.insertionSort (fun a b => b ≤ a), s.cap⟩

/-- Member filter(pred) of the full variant: builds a new Store by
push_backing, in order, every element satisfying the predicate; the
source store is not touched. -/
def filter {α : Type} (s : Store α) (p : α → Bool) : Store α :=
s.data.foldl (fun acc v => if p v then acc.push_back v else acc) Store.empty

end Full

/-- Removal of consecutive duplicate elements, the effect on the element
sequence of std::unique followed by erase to the end (one representative
survives from each run of equal adjacent elements). -/
def dedupConsec {α : Type} [DecidableEq α] : List α → List α
| [] => []
| [x] => [x]
| x :: y :: rest =>
  if x = y then dedupConsec (y :: rest)
  else x :: dedupConsec (y :: rest)

namespace Full

/-- Member unique(bool auto_sort) of the full variant: sorts ascending
first when auto_sort, then erases consecutive duplicates. -/
def unique {α : Type} [LinearOrder α] (s : Store α) (auto_sort : Bool) : Store α :=
let s1 := if auto_sort then Full.sort s true else s
⟨dedupConsec s1.data, s1.cap⟩

end Full

namespace Mini

/-- Member at(size_t pos) of the minimal variant: delegates to
std::vector::at, which throws std::out_of_range when pos >= size. -/
def at' {α : Type} (s : Store α) (pos : Nat) : Except Err α :=
if h : pos < s.data.length then Except.ok (s.data.get ⟨pos, h⟩)
else Except.error Err.outOfRange

/-- Member pop_front() of the minimal variant: erases the first element
only when the vector is non-empty, otherwise does nothing. -/
def pop_front {α : Type} (s : Store α) : Store α :=
match s.data with
| [] => s
| _ :: xs => ⟨xs, s.cap⟩

/-- Member pop_back() of the minimal variant: delegates to
std::vector::pop_back with no emptiness guard.  vector::pop_back
requires a non-empty vector; calling it on an empty one is undefined
behavior (the end pointer is decremented past the start, corrupting the
size bookkeeping), so the model is partial: none on the undefined
path, the last element removed otherwise. -/
def pop_back? {α : Type} (s : Store α) : Option (Store α) :=
match s.data with
| [] => none
| _ :: _ => some ⟨s.data.dropLast, s.cap⟩

/-- Member unique() of the minimal variant: erases consecutive
duplicates without any sorting. -/
def unique {α : Type} [DecidableEq α] (s : Store α) : Store α :=
⟨dedupConsec s.data, s.cap⟩

/-- Member sum(): std::accumulate from T{} with operator+. -/
def sum (s : Store Int) : Int :=
s.data.foldl (fun a b => a + b) 0

/-- Member average(): returns 0.0 on an empty store, otherwise
static_cast<double>(sum()) / size().  Modelled with exact rationals
(the claims under verification concern the guard, not rounding). -/
def average (s : Store Int) : Rat :=
if s.data.isEmpty then 0 else (Mini.sum s : Rat) / (s.data.length : Rat)

/-- Member insert(size_t pos, const T&) of the minimal variant: silently
does nothing when pos > size, otherwise inserts before pos. -/
def insert {α : Type} (s : Store α) (pos : Nat) (v : α) : Store α :=
if pos ≤ s.data.length then
  ⟨s.data.take pos ++ v :: s.data.drop pos, growCap s.cap (s.data.length + 1)⟩
else s

/-- Member remove_at(size_t pos) of the minimal variant: silently does
nothing when pos >= size, otherwise erases the element at pos. -/
def remove_at {α : Type} (s : Store α) (pos : Nat) : Store α :=
if pos < s.data.length then ⟨s.data.eraseIdx pos, s.cap⟩ else s

end Mini

/-- Whitespace of the C locale (space, tab, newline, vertical tab, form
feed, carriage return), skipped by the strtol/strtod machinery
underlying std::stoi and std::stod; stated on code points. -/
def isSpaceChar (c : Char) : Bool :=
c.toNat == 32 || c.toNat == 9 || c.toNat == 10 || c.toNat == 11 ||
  c.toNat == 12 || c.toNat == 13

/-- Decimal digit test, the characters between code points 48 and 57,
the digits 0 to 9. -/
def isDecDigit (c : Char) : Bool :=
48 ≤ c.toNat && c.toNat ≤ 57

/-- Numeric value of a decimal digit character. -/
def digitVal (c : Char) : Nat :=
c.toNat - 48

/-- Value of a most-significant-first decimal digit string. -/
def digitsVal (cs : List Char) : Nat :=
cs.foldl (fun acc c => 10 * acc + digitVal c) 0

/-- Smallest value of the C++ int type (32-bit two's complement). -/
def intMin : Int := -2147483648

/-- Largest value of the C++ int type (32-bit two's complement). -/
def intMax : Int := 2147483647

/-- Model of std::stoi in base 10: skip leading whitespace, read an
optional sign and then at least one decimal digit, ignore the rest of
the text.  Yields none where stoi throws: no digits (invalid_argument)
or a value outside the int range (out_of_range). -/
def stoi? (str : String) : Option Int :=
let cs := str.data.dropWhile (fun c => isSpaceChar c)
let sign : Int := if cs.head? = some '-' then -1 else 1
let rest := if cs.head? = some '-' ∨ cs.head? = some '+' then cs.tail else cs
let digs := rest.takeWhile isDecDigit
if digs.isEmpty then none
else
  let v : Int := sign * (digitsVal digs : Int)
  if v < intMin ∨ intMax < v then none else some v

/-- Model of std::stod on ordinary decimal text: skip leading
whitespace, read an optional sign, digits, and an optional fraction
part; none where no digit is read (invalid_argument).  The parsed value
is kept as an exact rational: the claims under verification depend only
on parse success or failure, never on binary rounding. -/
def stod? (str : String) : Option Rat :=
let cs := str.data.dropWhile (fun c => isSpaceChar c)
let sign : Rat := if cs.head? = some '-' then -1 else 1
let rest := if cs.head? = some '-' ∨ cs.head? = some '+' then cs.tail else cs
let intDigs := rest.takeWhile isDecDigit
let afterInt := rest.dropWhile isDecDigit
if afterInt.head? = some '.' then
  let fracDigs := afterInt.tail.takeWhile isDecDigit
  if intDigs.isEmpty && fracDigs.isEmpty then none
  else some (sign * ((digitsVal intDigs : Rat) +
    (digitsVal fracDigs : Rat) / ((10 : Rat) ^ fracDigs.length)))
else if intDigs.isEmpty then none
else some (sign * (digitsVal intDigs : Rat))

/-- Decimal digit characters of n, most significant first, by structural
recursion on a fuel argument (any fuel at least n suffices); empty for
n = 0. -/
def natDigitsAux : Nat → Nat → List Char
| 0, _ => []
| fuel + 1, n =>
  if n = 0 then []
  else natDigitsAux fuel (n / 10) ++ [Char.ofNat (48 + n % 10)]

/-- Decimal rendering of a natural number, "0" included. -/
def natToDecimal (n : Nat) : List Char :=
if n = 0 then ['0'] else natDigitsAux n n

/-- Model of std::to_string(int): an optional minus sign followed by the
decimal digits of the magnitude. -/
def cppIntToString (v : Int) : String :=
if v < 0 then ⟨'-' :: natToDecimal v.natAbs⟩ else ⟨natToDecimal v.natAbs⟩

namespace Full

/-- Member to_int() instantiated at T = std::string: throws
runtime_error on an empty source; otherwise push_backs std::stoi of
each element, recovering each parse failure (invalid_argument or
out_of_range, both caught by the catch-all) as 0. -/
def to_int (s : Store String) : Except Err (Store Int) :=
if s.data.isEmpty then Except.error Err.runtimeError
else Except.ok (buildByPush (s.data.map (fun t => (stoi? t).getD 0)))

/-- Member to_double() instantiated at T = std::string: throws
runtime_error on an empty source; otherwise push_backs std::stod of
each element, recovering each parse failure as 0.0. -/
def to_double (s : Store String) : Except Err (Store Rat) :=
if s.data.isEmpty then Except.error Err.runtimeError
else Except.ok (buildByPush (s.data.map (fun t => (stod? t).getD 0)))

/-- Member to_char() instantiated at T = std::string: throws
runtime_error on an empty source; otherwise takes the first character
of each element, or the null character for empty text. -/
def to_char (s : Store String) : Except Err (Store Char) :=
if s.data.isEmpty then Except.error Err.runtimeError
else Except.ok (buildByPush (s.data.map (fun t =>
  match t.data with
  | [] => Char.ofNat 0
  | c :: _ => c)))

/-- Member to_string() instantiated at T = int: throws runtime_error on
an empty source; otherwise push_backs std::to_string of each element. -/
def to_string (s : Store Int) : Except Err (Store String) :=
if s.data.isEmpty then Except.error Err.runtimeError
else Except.ok (buildByPush (s.data.map cppIntToString))

end Full

namespace Store

/-- Member clear(): erases all elements; std::vector::clear keeps the
capacity. -/
def clear {α : Type} (s : Store α) : Store α :=
⟨[], s.cap⟩

/-- Member reserve(new_capacity): grows the capacity to at least the
request, never shrinks, and leaves the elements alone. -/
def reserve {α : Type} (s : Store α) (n : Nat) : Store α :=
⟨s.data, Nat.max s.cap n⟩

/-- Member shrink_to_fit(): releases unused capacity down to the size. -/
def shrink_to_fit {α : Type} (s : Store α) : Store α :=
⟨s.data, s.data.length⟩

/-- Member resize(new_size): truncates, or appends default-valued
elements, reallocating when the new size exceeds the capacity. -/
def resize {α : Type} [Inhabited α] (s : Store α) (n : Nat) : Store α :=
⟨s.data.take n ++ List.replicate (n - s.data.length) default, growCap s.cap n⟩

end Store

/-- Mutating operations of the full variant, for reasoning about
arbitrary operation sequences. -/
inductive OpFull (α : Type) where
| pushBack (v : α)
| pushFront (v : α)
| popBack
| popFront
| insertAt (pos : Nat) (v : α)
| removeAt (pos : Nat)
| replaceAt (pos : Nat) (v : α)
| replaceAll (ov nv : α)
| fillOp (v : α)
| clearOp
| reserveOp (n : Nat)
| shrinkOp
| resizeOp (n : Nat)
| sortOp (ascending : Bool)
| reverseOp
| uniqueOp (auto_sort : Bool)

/-- Mutating operations of the minimal variant (no replace_at there). -/
inductive OpMini (α : Type) where
| pushBack (v : α)
| pushFront (v : α)
| popBack
| popFront
| insertAt (pos : Nat) (v : α)
| removeAt (pos : Nat)
| replaceAll (ov nv : α)
| fillOp (v : α)
| clearOp
| reserveOp (n : Nat)
| shrinkOp
| resizeOp (n : Nat)
| sortOp (ascending : Bool)
| reverseOp
| uniqueOp

/-- Effect of one full-variant operation on the store; an operation that
throws leaves the store unchanged (every throw in advance_store.hpp
happens before any mutation). -/
def stepFull {α : Type} [LinearOrder α] [Inhabited α] (op : OpFull α) (s : Store α) : Store α :=
match op with
| .pushBack v => s.push_back v
| .pushFront v => s.push_front v
| .popBack => match Full.pop_back s with | .ok t => t | .error _ => s
| .popFront => match Full.pop_front s with | .ok t => t | .error _ => s
| .insertAt pos v => match Full.insert s pos v with | .ok t => t | .error _ => s
| .removeAt pos => match Full.remove_at s pos with | .ok t => t | .error _ => s
| .replaceAt pos v => match Full.replace_at s pos v with | .ok t => t | .error _ => s
| .replaceAll ov nv => Full.replace_all s ov nv
| .fillOp v => Full.fill s v
| .clearOp => s.clear
| .reserveOp n => s.reserve n
| .shrinkOp => s.shrink_to_fit
| .resizeOp n => s.resize n
| .sortOp asc => Full.sort s asc
| .reverseOp => Full.reverse s
| .uniqueOp b => Full.unique s b

/-- Effect of one minimal-variant operation on the store.  The
unguarded pop_back delegates to the underlying vector primitive, whose
behavior on an empty vector is undefined, so the step is partial: none
exactly on that undefined path, the defined successor state otherwise. -/
def stepMini? {α : Type} [LinearOrder α] [Inhabited α] (op : OpMini α) (s : Store α) : Option (Store α) :=
match op with
| .pushBack v => some (s.push_back v)
| .pushFront v => some (s.push_front v)
| .popBack => Mini.pop_back? s
| .popFront => some (Mini.pop_front s)
| .insertAt pos v => some (Mini.insert s pos v)
| .removeAt pos => some (Mini.remove_at s pos)
| .replaceAll ov nv => some (Full.replace_all s ov nv)
| .fillOp v => some (Full.fill s v)
| .clearOp => some s.clear
| .reserveOp n => some (s.reserve n)
| .shrinkOp => some s.shrink_to_fit
| .resizeOp n => some (s.resize n)
| .sortOp asc => some (Full.sort s asc)
| .reverseOp => some (Full.reverse s)
| .uniqueOp => some (Mini.unique s)

/-- State after a whole sequence of full-variant operations. -/
def runFull {α : Type} [LinearOrder α] [Inhabited α] (ops : List (OpFull α)) (s : Store α) : Store α :=
ops.foldl (fun s op => stepFull op s) s

/-- State after a whole sequence of minimal-variant operations: some
final state when every step is defined, none as soon as a step hits
undefined behavior of the underlying vector. -/
def runMini? {α : Type} [LinearOrder α] [Inhabited α] : List (OpMini α) → Store α → Option (Store α)
| [], s => some s
| op :: ops, s =>
  match stepMini? op s with
  | none => none
  | some t => runMini? ops t

/-- Size-capacity invariant of the spec: 0 <= size <= capacity. -/
def inv {α : Type} (s : Store α) : Prop :=
0 ≤ s.data.length ∧ s.data.length ≤ s.cap

instance {α : Type} (s : Store α) : Decidable (inv s) :=
inferInstanceAs (Decidable (0 ≤ s.data.length ∧ s.data.length ≤ s.cap))

instance {ε α : Type} [DecidableEq ε] [DecidableEq α] : DecidableEq (Except ε α)
| Except.ok a, Except.ok b =>
  if h : a = b then isTrue (by rw [h]) else isFalse (by simp [h])
| Except.ok _, Except.error _ => isFalse (by simp)
| Except.error _, Except.ok _ => isFalse (by simp)
| Except.error e, Except.error f =>
  if h : e = f then isTrue (by rw [h]) else isFalse (by simp [h])

/-! ### Lemmas about the push_back construction pattern -/

theorem foldl_push_data {α : Type} (l : List α) (acc : Store α) :
    (l.foldl (fun a v => a.push_back v) acc).data = acc.data ++ l := by
  induction l generalizing acc with
  | nil => simp
  | cons x xs ih =>
    rw [List.foldl_cons, ih]
    simp [Store.push_back]

theorem buildByPush_data {α : Type} (l : List α) :
    (buildByPush l).data = l := by
  simp [buildByPush, foldl_push_data, Store.empty]

theorem foldl_filter_data {α : Type} (p : α → Bool) (l : List α) (acc : Store α) :
    (l.foldl (fun a v => if p v then a.push_back v else a) acc).data
      = acc.data ++ l.filter p := by
  induction l generalizing acc with
  | nil => simp
  | cons x xs ih =>
    rw [List.foldl_cons]
    by_cases h : p x = true
    · rw [if_pos h, ih]
      simp [Store.push_back, List.filter_cons, h]
    · rw [if_neg h, ih]
      simp [List.filter_cons, h]

theorem filter_data {α : Type} (s : Store α) (p : α → Bool) :
    (Full.filter s p).data = s.data.filter p := by
  simp [Full.filter, foldl_filter_data, Store.empty]

/-! ### Lemmas about consecutive deduplication -/

theorem dedupConsec_sublist {α : Type} [DecidableEq α] :
    ∀ l : List α, List.Sublist (dedupConsec l) l
  | [] => by simp [dedupConsec]
  | [x] => by simp [dedupConsec]
  | x :: y :: rest => by
    by_cases h : x = y
    · simp only [dedupConsec, if_pos h]
      exact (dedupConsec_sublist (y :: rest)).cons x
    · simp only [dedupConsec, if_neg h]
      exact (dedupConsec_sublist (y :: rest)).cons₂ x

theorem mem_dedupConsec {α : Type} [DecidableEq α] :
    ∀ (l : List α) (v : α), v ∈ l → v ∈ dedupConsec l
  | [] => by simp
  | [x] => by simp [dedupConsec]
  | x :: y :: rest => by
    intro v hv
    by_cases h : x = y
    · simp only [dedupConsec, if_pos h]
      rcases List.mem_cons.mp hv with rfl | hv2
      · subst h
        exact mem_dedupConsec (v :: rest) v (List.mem_cons_self v rest)
      · exact mem_dedupConsec (y :: rest) v hv2
    · simp only [dedupConsec, if_neg h]
      rcases List.mem_cons.mp hv with rfl | hv2
      · exact List.mem_cons_self v _
      · exact List.mem_cons.mpr (Or.inr (mem_dedupConsec (y :: rest) v hv2))

theorem dedupConsec_sorted_lt {α : Type} [LinearOrder α] :
    ∀ l : List α, l.Sorted (fun a b => a ≤ b) →
      (dedupConsec l).Sorted (fun a b => a < b)
  | [] => by simp [dedupConsec]
  | [x] => by simp [dedupConsec]
  | x :: y :: rest => by
    intro hs
    rw [List.sorted_cons] at hs
    obtain ⟨hx, hs2⟩ := hs
    by_cases h : x = y
    · simp only [dedupConsec, if_pos h]
      exact dedupConsec_sorted_lt (y :: rest) hs2
    · simp only [dedupConsec, if_neg h]
      rw [List.sorted_cons]
      refine ⟨?_, dedupConsec_sorted_lt (y :: rest) hs2⟩
      intro b hb
      have hb2 : b ∈ y :: rest := (dedupConsec_sublist (y :: rest)).subset hb
      have hyb : y ≤ b := by
        rcases List.mem_cons.mp hb2 with rfl | hb3
        · exact le_refl b
        · exact List.rel_of_sorted_cons hs2 b hb3
      have hxy : x < y := lt_of_le_of_ne (hx y (List.mem_cons_self y rest)) h
      exact lt_of_lt_of_le hxy hyb

/-! ### Claim theorems -/

/-- C1: the full variant's unique() with auto_sort leaves a strictly
increasing, duplicate-free sequence holding exactly the original values
(global deduplication); on [5,2,8,1,9,2,5] it yields [1,2,5,8,9], while
the minimal variant's unique() on the same unsorted input leaves the
store unchanged, removing only consecutive duplicates without sorting. -/
theorem unique_variant_divergence :
    (∀ s : Store Int,
      (Full.unique s true).data.Sorted (fun a b => a < b)
      ∧ (Full.unique s true).data.Nodup
      ∧ (∀ v : Int, v ∈ (Full.unique s true).data ↔ v ∈ s.data))
    ∧ (Full.unique (Store.ofList ([5, 2, 8, 1, 9, 2, 5] : List Int)) true).data
        = [1, 2, 5, 8, 9]
    ∧ Mini.unique (Store.ofList ([5, 2, 8, 1, 9, 2, 5] : List Int))
        = Store.ofList [5, 2, 8, 1, 9, 2, 5] := by
  refine ⟨?_, by decide, by decide⟩
  intro s
  have hsorted : (s.data.insertionSort (fun a b => a ≤ b)).Sorted (fun a b => a ≤ b) :=
    List.sorted_insertionSort _ _
  have hdata : (Full.unique s true).data
      = dedupConsec (s.data.insertionSort (fun a b => a ≤ b)) := rfl
  have hlt := dedupConsec_sorted_lt _ hsorted
  refine ⟨hdata ▸ hlt, hdata ▸ hlt.imp (fun hab => ne_of_lt hab), ?_⟩
  intro v
  rw [hdata]
  constructor
  · intro hv
    exact (List.perm_insertionSort (fun a b => a ≤ b) s.data).mem_iff.mp
      ((dedupConsec_sublist _).subset hv)
  · intro hv
    exact mem_dedupConsec _ v
      ((List.perm_insertionSort (fun a b => a ≤ b) s.data).mem_iff.mpr hv)

/-- C4: in the full variant, at(pos) raises OutOfRange exactly when
pos >= size and otherwise returns the element at pos; front, back, max,
min and mid raise OutOfRange exactly when the store is empty and return
a value otherwise.  All of these are const member functions, modelled as
pure functions, so they cannot change the store. -/
theorem full_bounds_checking :
    ∀ (s : Store Int) (pos : Nat),
    (Full.at' s pos = Except.error Err.outOfRange ↔ s.data.length ≤ pos)
    ∧ (∀ h : pos < s.data.length, Full.at' s pos = Except.ok (s.data.get ⟨pos, h⟩))
    ∧ (Full.front s = Except.error Err.outOfRange ↔ s.data = [])
    ∧ (Full.back s = Except.error Err.outOfRange ↔ s.data = [])
    ∧ (Full.max s = Except.error Err.outOfRange ↔ s.data = [])
    ∧ (Full.min s = Except.error Err.outOfRange ↔ s.data = [])
    ∧ (Full.mid s = Except.error Err.outOfRange ↔ s.data = [])
    ∧ (s.data ≠ [] →
        (∃ v, Full.front s = Except.ok v) ∧ (∃ v, Full.back s = Except.ok v)
        ∧ (∃ v, Full.max s = Except.ok v) ∧ (∃ v, Full.min s = Except.ok v)
        ∧ (∃ v, Full.mid s = Except.ok v)) := by
  intro s pos
  refine ⟨⟨?_, ?_⟩, ?_, ?_, ?_, ?_, ?_, ?_, ?_⟩
  · intro he
    unfold Full.at' at he
    split at he
    · exact absurd he (by simp)
    · omega
  · intro hle
    unfold Full.at'
    rw [dif_neg (by omega)]
  · intro h
    unfold Full.at'
    rw [dif_pos h]
  · cases hd : s.data <;> simp [Full.front, hd]
  · cases hd : s.data <;> simp [Full.back, hd]
  · cases hd : s.data <;> simp [Full.max, hd]
  · cases hd : s.data <;> simp [Full.min, hd]
  · unfold Full.mid
    split
    · rename_i h
      rw [List.length_eq_zero] at h
      simp [h]
    · rename_i h
      rw [List.length_eq_zero] at h
      simp [h]
  · intro hne
    cases hd : s.data with
    | nil => exact absurd hd hne
    | cons x xs =>
      simp [Full.front, Full.back, Full.max, Full.min, Full.mid, hd]

/-- C4 witness: at(1) on [1,2,3] returns 2 and max on the same store
succeeds. -/
theorem full_bounds_checking_witness :
    Full.at' (Store.ofList ([1, 2, 3] : List Int)) 1 = Except.ok 2
    ∧ (∃ v, Full.max (Store.ofList ([1, 2, 3] : List Int)) = Except.ok v) := by
  have hlt : (1 : Nat) < (Store.ofList ([1, 2, 3] : List Int)).data.length := by decide
  have h1 := (full_bounds_checking (Store.ofList [1, 2, 3]) 1).2.1 hlt
  have h2 := (full_bounds_checking (Store.ofList [1, 2, 3]) 1).2.2.2.2.2.2.2 (by decide)
  exact ⟨h1, h2.2.2.1⟩

/-- C5: filter returns a new store holding exactly the elements
satisfying the predicate, in their original relative order (a sublist of
the source data), and on [1,2,3,4,5] with evenness yields [2,4]; the
source is a const receiver, hence unchanged. -/
theorem filter_spec :
    (∀ (s : Store Int) (p : Int → Bool),
      (Full.filter s p).data = s.data.filter p
      ∧ (Full.filter s p).data.Sublist s.data
      ∧ (∀ v : Int, v ∈ (Full.filter s p).data ↔ v ∈ s.data ∧ p v = true))
    ∧ (Full.filter (Store.ofList [1, 2, 3, 4, 5]) (fun v => v % 2 == 0)).data
        = [2, 4] := by
  constructor
  · intro s p
    have hd := filter_data s p
    refine ⟨hd, ?_, ?_⟩
    · rw [hd]; exact List.filter_sublist _
    · intro v; rw [hd]; simp [List.mem_filter]
  · decide

/-- C6: pop_front on an empty store raises OutOfRange in the full
variant but is a no-op in the minimal variant; on a non-empty store both
remove exactly the first element. -/
theorem pop_front_divergence :
    (∀ c : Nat,
      Full.pop_front (⟨[], c⟩ : Store Int) = Except.error Err.outOfRange
      ∧ Mini.pop_front (⟨[], c⟩ : Store Int) = ⟨[], c⟩)
    ∧ (∀ (v : Int) (rest : List Int) (c : Nat),
      Full.pop_front (⟨v :: rest, c⟩ : Store Int) = Except.ok ⟨rest, c⟩
      ∧ Mini.pop_front (⟨v :: rest, c⟩ : Store Int) = ⟨rest, c⟩) :=
  ⟨fun _ => ⟨rfl, rfl⟩, fun _ _ _ => ⟨rfl, rfl⟩⟩

/-- C9: the minimal variant's at delegates to std::vector::at and is
therefore bounds-checked: out-of-range error exactly when pos >= size,
the element at pos otherwise. -/
theorem mini_at_bounds_checked :
    ∀ (s : Store Int) (pos : Nat),
    (Mini.at' s pos = Except.error Err.outOfRange ↔ s.data.length ≤ pos)
    ∧ (∀ h : pos < s.data.length, Mini.at' s pos = Except.ok (s.data.get ⟨pos, h⟩)) := by
  intro s pos
  refine ⟨⟨?_, ?_⟩, ?_⟩
  · intro he
    unfold Mini.at' at he
    split at he
    · exact absurd he (by simp)
    · omega
  · intro hle
    unfold Mini.at'
    rw [dif_neg (by omega)]
  · intro h
    unfold Mini.at'
    rw [dif_pos h]

/-- C9 witness: at(0) on [7] returns 7, at(5) on [7] reports the
out-of-range error. -/
theorem mini_at_bounds_checked_witness :
    Mini.at' (Store.ofList ([7] : List Int)) 0 = Except.ok 7
    ∧ Mini.at' (Store.ofList ([7] : List Int)) 5 = Except.error Err.outOfRange :=
  ⟨(mini_at_bounds_checked (Store.ofList [7]) 0).2 (by decide),
   (mini_at_bounds_checked (Store.ofList [7]) 5).1.mpr (by decide)⟩

/-- C10: the minimal variant's average is total: 0 on an empty store
without reaching the division, sum divided by size otherwise. -/
theorem mini_average_total :
    (∀ s : Store Int, s.data = [] → Mini.average s = 0)
    ∧ (∀ s : Store Int, s.data ≠ [] →
        Mini.average s = (Mini.sum s : Rat) / (s.data.length : Rat))
    ∧ Mini.average (Store.ofList [1, 2]) = 3 / 2 := by
  refine ⟨?_, ?_, ?_⟩
  · intro s h
    simp [Mini.average, h]
  · intro s h
    rw [Mini.average, if_neg (by simp [h])]
  · norm_num [Mini.average, Mini.sum, Store.ofList, List.foldl]

/-- C2: to_int on a non-empty store of strings returns, without raising
any error, a store of the same length whose elements are the parsed
integers, with every failed parse recovered as 0; on ["12","abc","7"] it
yields [12, 0, 7]. -/
theorem to_int_parse_recovery :
    (∀ s : Store String, s.data ≠ [] →
      ∃ t : Store Int, Full.to_int s = Except.ok t
        ∧ t.data = s.data.map (fun u => (stoi? u).getD 0)
        ∧ t.data.length = s.data.length)
    ∧ (Full.to_int (Store.ofList ["12", "abc", "7"])).map Store.data
        = Except.ok [12, 0, 7] := by
  constructor
  · intro s h
    refine ⟨buildByPush (s.data.map (fun u => (stoi? u).getD 0)), ?_, ?_, ?_⟩
    · rw [Full.to_int, if_neg (by simp [h])]
    · exact buildByPush_data _
    · rw [buildByPush_data]
      simp
  · decide

/-- C2 witness: the parse-recovery description instantiated on the
single-element store ["5"]. -/
theorem to_int_parse_recovery_witness :
    ∃ t : Store Int, Full.to_int (Store.ofList ["5"]) = Except.ok t
      ∧ t.data = (Store.ofList ["5"]).data.map (fun u => (stoi? u).getD 0)
      ∧ t.data.length = (Store.ofList ["5"]).data.length :=
  to_int_parse_recovery.1 (Store.ofList ["5"]) (by decide)

/-- C3: each of the four typed conversions of the full variant raises
RuntimeError exactly on an empty source and succeeds on every non-empty
source; all four are const member functions, so the source store is
unchanged in every case. -/
theorem conversion_empty_guard :
    (∀ s : Store String,
      (Full.to_int s = Except.error Err.runtimeError ↔ s.data = [])
      ∧ (s.data ≠ [] → ∃ t, Full.to_int s = Except.ok t))
    ∧ (∀ s : Store String,
      (Full.to_double s = Except.error Err.runtimeError ↔ s.data = [])
      ∧ (s.data ≠ [] → ∃ t, Full.to_double s = Except.ok t))
    ∧ (∀ s : Store String,
      (Full.to_char s = Except.error Err.runtimeError ↔ s.data = [])
      ∧ (s.data ≠ [] → ∃ t, Full.to_char s = Except.ok t))
    ∧ (∀ s : Store Int,
      (Full.to_string s = Except.error Err.runtimeError ↔ s.data = [])
      ∧ (s.data ≠ [] → ∃ t, Full.to_string s = Except.ok t)) := by
  refine ⟨?_, ?_, ?_, ?_⟩
  · intro s
    constructor
    · by_cases h : s.data = []
      · simp [Full.to_int, h]
      · rw [Full.to_int, if_neg (by simp [h])]
        simp [h]
    · intro h
      rw [Full.to_int, if_neg (by simp [h])]
      exact ⟨_, rfl⟩
  · intro s
    constructor
    · by_cases h : s.data = []
      · simp [Full.to_double, h]
      · rw [Full.to_double, if_neg (by simp [h])]
        simp [h]
    · intro h
      rw [Full.to_double, if_neg (by simp [h])]
      exact ⟨_, rfl⟩
  · intro s
    constructor
    · by_cases h : s.data = []
      · simp [Full.to_char, h]
      · rw [Full.to_char, if_neg (by simp [h])]
        simp [h]
    · intro h
      rw [Full.to_char, if_neg (by simp [h])]
      exact ⟨_, rfl⟩
  · intro s
    constructor
    · by_cases h : s.data = []
      · simp [Full.to_string, h]
      · rw [Full.to_string, if_neg (by simp [h])]
        simp [h]
    · intro h
      rw [Full.to_string, if_neg (by simp [h])]
      exact ⟨_, rfl⟩

/-- C3 witness: each conversion succeeds on a concrete non-empty
store. -/
theorem conversion_empty_guard_witness :
    (∃ t, Full.to_int (Store.ofList ["12"]) = Except.ok t)
    ∧ (∃ t, Full.to_double (Store.ofList ["x"]) = Except.ok t)
    ∧ (∃ t, Full.to_char (Store.ofList [""]) = Except.ok t)
    ∧ (∃ t, Full.to_string (Store.ofList ([5] : List Int)) = Except.ok t) :=
  ⟨(conversion_empty_guard.1 (Store.ofList ["12"])).2 (by decide),
   (conversion_empty_guard.2.1 (Store.ofList ["x"])).2 (by decide),
   (conversion_empty_guard.2.2.1 (Store.ofList [""])).2 (by decide),
   (conversion_empty_guard.2.2.2 (Store.ofList [5])).2 (by decide)⟩

/-! ### Lemmas about decimal rendering and parsing -/

theorem digitVal_ofNat {m : Nat} (h : m < 10) :
    digitVal (Char.ofNat (48 + m)) = m := by
  interval_cases m <;> decide

theorem isDecDigit_ofNat {m : Nat} (h : m < 10) :
    isDecDigit (Char.ofNat (48 + m)) = true := by
  interval_cases m <;> decide

theorem isSpaceChar_eq_false_of_isDecDigit {c : Char} (h : isDecDigit c = true) :
    isSpaceChar c = false := by
  simp only [isDecDigit, Bool.and_eq_true, decide_eq_true_eq] at h
  simp only [isSpaceChar, Bool.or_eq_false_iff, beq_eq_false_iff_ne, ne_eq]
  omega

theorem ne_minus_of_isDecDigit {c : Char} (h : isDecDigit c = true) : c ≠ '-' := by
  intro he
  rw [he] at h
  exact absurd h (by decide)

theorem ne_plus_of_isDecDigit {c : Char} (h : isDecDigit c = true) : c ≠ '+' := by
  intro he
  rw [he] at h
  exact absurd h (by decide)

theorem digitsVal_append_singleton (ds : List Char) (c : Char) :
    digitsVal (ds ++ [c]) = 10 * digitsVal ds + digitVal c := by
  simp [digitsVal, List.foldl_append]

theorem natDigitsAux_all_digits :
    ∀ (fuel n : Nat), ∀ c ∈ natDigitsAux fuel n, isDecDigit c = true
  | 0, n => by simp [natDigitsAux]
  | fuel + 1, n => by
    by_cases h : n = 0
    · simp [natDigitsAux, h]
    · intro c hc
      rw [natDigitsAux, if_neg h] at hc
      rcases List.mem_append.mp hc with h1 | h2
      · exact natDigitsAux_all_digits fuel (n / 10) c h1
      · have hc2 : c = Char.ofNat (48 + n % 10) := by simpa using h2
        rw [hc2]
        exact isDecDigit_ofNat (Nat.mod_lt n (by decide))

theorem digitsVal_natDigitsAux :
    ∀ (fuel n : Nat), n ≤ fuel → digitsVal (natDigitsAux fuel n) = n
  | 0, n => by
    intro h
    simp only [natDigitsAux, digitsVal, List.foldl_nil]
    omega
  | fuel + 1, n => by
    intro h
    by_cases h0 : n = 0
    · simp [natDigitsAux, h0, digitsVal]
    · rw [natDigitsAux, if_neg h0, digitsVal_append_singleton,
        digitsVal_natDigitsAux fuel (n / 10) (by omega),
        digitVal_ofNat (Nat.mod_lt n (by decide))]
      omega

theorem natToDecimal_all_digits (n : Nat) :
    ∀ c ∈ natToDecimal n, isDecDigit c = true := by
  unfold natToDecimal
  by_cases h : n = 0
  · rw [if_pos h]
    intro c hc
    have : c = '0' := by simpa using hc
    rw [this]
    decide
  · rw [if_neg h]
    exact natDigitsAux_all_digits n n

theorem digitsVal_natToDecimal (n : Nat) : digitsVal (natToDecimal n) = n := by
  unfold natToDecimal
  by_cases h : n = 0
  · rw [if_pos h, h]
    decide
  · rw [if_neg h]
    exact digitsVal_natDigitsAux n n (le_refl n)

theorem natToDecimal_ne_nil (n : Nat) : natToDecimal n ≠ [] := by
  unfold natToDecimal
  by_cases h : n = 0
  · rw [if_pos h]
    simp
  · rw [if_neg h]
    cases n with
    | zero => exact absurd rfl h
    | succ m =>
      rw [natDigitsAux, if_neg h]
      simp

theorem map_id_of_mem {α : Type} (l : List α) (f : α → α)
    (h : ∀ v ∈ l, f v = v) : l.map f = l := by
  induction l with
  | nil => rfl
  | cons x xs ih =>
    rw [List.map_cons, h x (List.mem_cons_self x xs),
      ih (fun v hv => h v (List.mem_cons_of_mem x hv))]

theorem stoi?_digits (d : List Char) (hne : d ≠ [])
    (hall : ∀ c ∈ d, isDecDigit c = true)
    (hle : (digitsVal d : Int) ≤ intMax) :
    stoi? ⟨d⟩ = some ((digitsVal d : Int)) := by
  obtain ⟨c, rest, rfl⟩ : ∃ c rest, d = c :: rest := by
    cases d with
    | nil => exact absurd rfl hne
    | cons c rest => exact ⟨c, rest, rfl⟩
  have hc := hall c (List.mem_cons_self c rest)
  have hsp : isSpaceChar c = false := isSpaceChar_eq_false_of_isDecDigit hc
  have hdrop : (c :: rest).dropWhile isSpaceChar = c :: rest := by
    rw [List.dropWhile_cons, if_neg (by simp [hsp])]
  have htake : (c :: rest).takeWhile isDecDigit = c :: rest :=
    List.takeWhile_eq_self_iff.mpr hall
  have hcm : (some c = some '-') = False := by
    simp [ne_minus_of_isDecDigit hc]
  have hcp : (some c = some '+') = False := by
    simp [ne_plus_of_isDecDigit hc]
  simp only [stoi?, hdrop, List.head?_cons, hcm, hcp, or_self, if_false, htake,
    List.isEmpty_cons, Bool.false_eq_true, one_mul]
  rw [if_neg (by simp only [intMin, intMax] at hle ⊢; omega)]

theorem stoi?_neg_digits (d : List Char) (hne : d ≠ [])
    (hall : ∀ c ∈ d, isDecDigit c = true)
    (hge : intMin ≤ -(digitsVal d : Int)) :
    stoi? ⟨'-' :: d⟩ = some (-(digitsVal d : Int)) := by
  have hdrop : ('-' :: d).dropWhile isSpaceChar = '-' :: d := by
    rw [List.dropWhile_cons, if_neg (by decide)]
  have htake : d.takeWhile isDecDigit = d :=
    List.takeWhile_eq_self_iff.mpr hall
  have hdne : d.isEmpty = false := by
    cases d with
    | nil => exact absurd rfl hne
    | cons x xs => rfl
  simp only [stoi?, hdrop, List.head?_cons, List.tail_cons]
  simp only [if_pos (Or.inl (trivial : True)), if_pos (trivial : True), htake,
    hdne, Bool.false_eq_true, if_false, neg_one_mul]
  rw [if_neg (by simp only [intMin, intMax] at hge ⊢; omega)]

theorem stoi?_cppIntToString (v : Int) (h1 : intMin ≤ v) (h2 : v ≤ intMax) :
    stoi? (cppIntToString v) = some v := by
  have hdv : digitsVal (natToDecimal v.natAbs) = v.natAbs :=
    digitsVal_natToDecimal _
  by_cases hv : v < 0
  · rw [cppIntToString, if_pos hv]
    rw [stoi?_neg_digits (natToDecimal v.natAbs) (natToDecimal_ne_nil _)
      (natToDecimal_all_digits _) (by rw [hdv]; simp only [intMin, intMax] at h1 h2 ⊢; omega)]
    rw [hdv]
    congr 1
    omega
  · rw [cppIntToString, if_neg hv]
    rw [stoi?_digits (natToDecimal v.natAbs) (natToDecimal_ne_nil _)
      (natToDecimal_all_digits _) (by rw [hdv]; simp only [intMin, intMax] at h1 h2 ⊢; omega)]
    rw [hdv]
    congr 1
    omega

/-- C7: converting a non-empty store of C++ ints to strings and parsing
each element back with to_int reproduces the original store element for
element. -/
theorem to_string_to_int_roundtrip :
    ∀ s : Store Int, s.data ≠ [] → (∀ v ∈ s.data, intMin ≤ v ∧ v ≤ intMax) →
    ∃ (u : Store String) (t : Store Int),
      Full.to_string s = Except.ok u ∧ Full.to_int u = Except.ok t
      ∧ t.data = s.data := by
  intro s hne hbound
  have hu : (buildByPush (s.data.map cppIntToString)).data
      = s.data.map cppIntToString := buildByPush_data _
  refine ⟨buildByPush (s.data.map cppIntToString),
    buildByPush ((s.data.map cppIntToString).map (fun w => (stoi? w).getD 0)),
    ?_, ?_, ?_⟩
  · rw [Full.to_string, if_neg (by simp [hne])]
  · rw [Full.to_int, if_neg (by simp [hu, hne]), hu]
  · rw [buildByPush_data, List.map_map]
    exact map_id_of_mem s.data _ (fun v hv => by
      obtain ⟨hb1, hb2⟩ := hbound v hv
      simp [Function.comp, stoi?_cppIntToString v hb1 hb2])

/-- C7 witness: [1,2,3] survives the to_string / to_int round trip. -/
theorem to_string_to_int_roundtrip_witness :
    ∃ (u : Store String) (t : Store Int),
      Full.to_string (Store.ofList [1, 2, 3]) = Except.ok u
      ∧ Full.to_int u = Except.ok t
      ∧ t.data = (Store.ofList ([1, 2, 3] : List Int)).data :=
  to_string_to_int_roundtrip (Store.ofList [1, 2, 3]) (by decide) (by decide)

/-! ### Lemmas about the size-capacity invariant -/

theorem growCap_ge (cap need : Nat) : need ≤ growCap cap need := by
  unfold growCap
  split
  · assumption
  · exact Nat.le_max_right _ _

theorem stepFull_inv {α : Type} [LinearOrder α] [Inhabited α]
    (op : OpFull α) (s : Store α) (h : inv s) : inv (stepFull op s) := by
  obtain ⟨-, h2⟩ := h
  cases op with
  | pushBack v =>
    refine ⟨Nat.zero_le _, ?_⟩
    simpa [stepFull, Store.push_back] using growCap_ge s.cap (s.data.length + 1)
  | pushFront v =>
    refine ⟨Nat.zero_le _, ?_⟩
    simpa [stepFull, Store.push_front] using growCap_ge s.cap (s.data.length + 1)
  | popBack =>
    cases hd : s.data with
    | nil =>
      simp only [stepFull, Full.pop_back, hd]
      exact ⟨Nat.zero_le _, h2⟩
    | cons x xs =>
      refine ⟨Nat.zero_le _, ?_⟩
      rw [hd] at h2
      simp only [stepFull, Full.pop_back, hd]
      simp only [List.dropLast_cons_of_ne_nil, List.length_dropLast] at *
      simp at h2 ⊢
      omega
  | popFront =>
    cases hd : s.data with
    | nil =>
      simp only [stepFull, Full.pop_front, hd]
      exact ⟨Nat.zero_le _, h2⟩
    | cons x xs =>
      refine ⟨Nat.zero_le _, ?_⟩
      rw [hd] at h2
      simp only [stepFull, Full.pop_front, hd]
      simp at h2 ⊢
      omega
  | insertAt pos v =>
    simp only [stepFull, Full.insert]
    by_cases hpos : s.data.length < pos
    · rw [if_pos hpos]
      exact ⟨Nat.zero_le _, h2⟩
    · rw [if_neg hpos]
      refine ⟨Nat.zero_le _, ?_⟩
      have hg := growCap_ge s.cap (s.data.length + 1)
      simp [List.length_take, List.length_drop]
      omega
  | removeAt pos =>
    simp only [stepFull, Full.remove_at]
    by_cases hpos : pos < s.data.length
    · rw [if_pos hpos]
      refine ⟨Nat.zero_le _, ?_⟩
      have := List.length_eraseIdx_add_one hpos
      simp
      omega
    · rw [if_neg hpos]
      exact ⟨Nat.zero_le _, h2⟩
  | replaceAt pos v =>
    simp only [stepFull, Full.replace_at]
    by_cases hpos : pos < s.data.length
    · rw [if_pos hpos]
      refine ⟨Nat.zero_le _, ?_⟩
      simpa using h2
    · rw [if_neg hpos]
      exact ⟨Nat.zero_le _, h2⟩
  | replaceAll ov nv =>
    refine ⟨Nat.zero_le _, ?_⟩
    simpa [stepFull, Full.replace_all] using h2
  | fillOp v =>
    refine ⟨Nat.zero_le _, ?_⟩
    simpa [stepFull, Full.fill] using h2
  | clearOp =>
    exact ⟨Nat.zero_le _, Nat.zero_le _⟩
  | reserveOp n =>
    exact ⟨Nat.zero_le _, le_trans h2 (Nat.le_max_left _ _)⟩
  | shrinkOp =>
    exact ⟨Nat.zero_le _, le_refl _⟩
  | resizeOp n =>
    refine ⟨Nat.zero_le _, ?_⟩
    have hg := growCap_ge s.cap n
    simp [stepFull, Store.resize, List.length_take]
    omega
  | sortOp asc =>
    refine ⟨Nat.zero_le _, ?_⟩
    cases asc with
    | false =>
      simpa [stepFull, Full.sort, List.length_insertionSort] using h2
    | true =>
      simpa [stepFull, Full.sort, List.length_insertionSort] using h2
  | reverseOp =>
    refine ⟨Nat.zero_le _, ?_⟩
    simpa [stepFull, Full.reverse] using h2
  | uniqueOp b =>
    refine ⟨Nat.zero_le _, ?_⟩
    cases b with
    | false =>
      simp only [stepFull, Full.unique, Bool.false_eq_true, if_false]
      exact le_trans (dedupConsec_sublist _).length_le h2
    | true =>
      simp only [stepFull, Full.unique, if_pos rfl]
      refine le_trans (dedupConsec_sublist _).length_le ?_
      simpa [Full.sort, List.length_insertionSort] using h2

theorem stepMini_inv {α : Type} [LinearOrder α] [Inhabited α]
    (op : OpMini α) (s t : Store α) (h : inv s) (hstep : stepMini? op s = some t) :
    inv t := by
  obtain ⟨-, h2⟩ := h
  cases op with
  | pushBack v =>
    obtain rfl : s.push_back v = t := by simpa [stepMini?] using hstep
    refine ⟨Nat.zero_le _, ?_⟩
    simpa [Store.push_back] using growCap_ge s.cap (s.data.length + 1)
  | pushFront v =>
    obtain rfl : s.push_front v = t := by simpa [stepMini?] using hstep
    refine ⟨Nat.zero_le _, ?_⟩
    simpa [Store.push_front] using growCap_ge s.cap (s.data.length + 1)
  | popBack =>
    cases hd : s.data with
    | nil =>
      have hnone : stepMini? OpMini.popBack s = none := by
        simp [stepMini?, Mini.pop_back?, hd]
      rw [hnone] at hstep
      exact Option.noConfusion hstep
    | cons x xs =>
      simp only [stepMini?, Mini.pop_back?, hd] at hstep
      obtain rfl : (⟨(x :: xs).dropLast, s.cap⟩ : Store α) = t := by simpa using hstep
      refine ⟨Nat.zero_le _, ?_⟩
      rw [hd] at h2
      simp at h2 ⊢
      omega
  | popFront =>
    obtain rfl : Mini.pop_front s = t := by simpa [stepMini?] using hstep
    cases hd : s.data with
    | nil =>
      simp only [Mini.pop_front, hd]
      exact ⟨Nat.zero_le _, h2⟩
    | cons x xs =>
      refine ⟨Nat.zero_le _, ?_⟩
      rw [hd] at h2
      simp only [Mini.pop_front, hd]
      simp at h2 ⊢
      omega
  | insertAt pos v =>
    obtain rfl : Mini.insert s pos v = t := by simpa [stepMini?] using hstep
    simp only [Mini.insert]
    split
    · rename_i hpos
      refine ⟨Nat.zero_le _, ?_⟩
      have hg := growCap_ge s.cap (s.data.length + 1)
      simp [List.length_take, List.length_drop]
      omega
    · exact ⟨Nat.zero_le _, h2⟩
  | removeAt pos =>
    obtain rfl : Mini.remove_at s pos = t := by simpa [stepMini?] using hstep
    simp only [Mini.remove_at]
    split
    · rename_i hpos
      refine ⟨Nat.zero_le _, ?_⟩
      have := List.length_eraseIdx_add_one hpos
      simp
      omega
    · exact ⟨Nat.zero_le _, h2⟩
  | replaceAll ov nv =>
    obtain rfl : Full.replace_all s ov nv = t := by simpa [stepMini?] using hstep
    refine ⟨Nat.zero_le _, ?_⟩
    simpa [Full.replace_all] using h2
  | fillOp v =>
    obtain rfl : Full.fill s v = t := by simpa [stepMini?] using hstep
    refine ⟨Nat.zero_le _, ?_⟩
    simpa [Full.fill] using h2
  | clearOp =>
    obtain rfl : s.clear = t := by simpa [stepMini?] using hstep
    exact ⟨Nat.zero_le _, Nat.zero_le _⟩
  | reserveOp n =>
    obtain rfl : s.reserve n = t := by simpa [stepMini?] using hstep
    exact ⟨Nat.zero_le _, le_trans h2 (Nat.le_max_left _ _)⟩
  | shrinkOp =>
    obtain rfl : s.shrink_to_fit = t := by simpa [stepMini?] using hstep
    exact ⟨Nat.zero_le _, le_refl _⟩
  | resizeOp n =>
    obtain rfl : s.resize n = t := by simpa [stepMini?] using hstep
    refine ⟨Nat.zero_le _, ?_⟩
    have hg := growCap_ge s.cap n
    simp [Store.resize, List.length_take]
    omega
  | sortOp asc =>
    obtain rfl : Full.sort s asc = t := by simpa [stepMini?] using hstep
    refine ⟨Nat.zero_le _, ?_⟩
    cases asc with
    | false =>
      simpa [Full.sort, List.length_insertionSort] using h2
    | true =>
      simpa [Full.sort, List.length_insertionSort] using h2
  | reverseOp =>
    obtain rfl : Full.reverse s = t := by simpa [stepMini?] using hstep
    refine ⟨Nat.zero_le _, ?_⟩
    simpa [Full.reverse] using h2
  | uniqueOp =>
    obtain rfl : Mini.unique s = t := by simpa [stepMini?] using hstep
    refine ⟨Nat.zero_le _, ?_⟩
    simp only [Mini.unique]
    exact le_trans (dedupConsec_sublist _).length_le h2

theorem runFull_inv {α : Type} [LinearOrder α] [Inhabited α] :
    ∀ (ops : List (OpFull α)) (s : Store α), inv s → inv (runFull ops s)
  | [] => fun _ h => h
  | op :: ops => fun s h => runFull_inv ops (stepFull op s) (stepFull_inv op s h)

theorem runMini_inv {α : Type} [LinearOrder α] [Inhabited α] :
    ∀ (ops : List (OpMini α)) (s : Store α), inv s →
      ∀ t : Store α, runMini? ops s = some t → inv t
  | [] => fun s h t ht => by
    simp only [runMini?, Option.some.injEq] at ht
    exact ht ▸ h
  | op :: ops => fun s h t ht => by
    simp only [runMini?] at ht
    cases hstep : stepMini? op s with
    | none =>
      rw [hstep] at ht
      exact Option.noConfusion ht
    | some u =>
      rw [hstep] at ht
      exact runMini_inv ops u (stepMini_inv op s u h hstep) t ht

/-- C8 (amended): every constructor establishes 0 <= size <= capacity;
every full-variant operation sequence preserves it; and every
minimal-variant operation sequence that stays inside the defined
behavior of the underlying vector — pop_back invoked only on non-empty
stores, its C++ precondition — preserves it.  The unguarded minimal
pop_back on an empty store is undefined behavior, where the code
establishes nothing (see the counterexample). -/
theorem size_le_capacity_invariant :
    inv (Store.empty : Store Int)
    ∧ (∀ n : Nat, inv (Store.ofSize n : Store Int))
    ∧ (∀ l : List Int, inv (Store.ofList l))
    ∧ (∀ s : Store Int, inv s → ∀ ops : List (OpFull Int), inv (runFull ops s))
    ∧ (∀ s : Store Int, inv s → ∀ ops : List (OpMini Int), ∀ t : Store Int,
        runMini? ops s = some t → inv t) := by
  refine ⟨⟨le_refl 0, le_refl 0⟩, ?_, ?_, ?_, ?_⟩
  · intro n
    exact ⟨Nat.zero_le _, by simp [Store.ofSize]⟩
  · intro l
    exact ⟨Nat.zero_le _, le_refl _⟩
  · intro s h ops
    exact runFull_inv ops s h
  · intro s h ops t ht
    exact runMini_inv ops s h t ht

/-- C8 counterexample: the one-operation minimal-variant sequence
[pop_back] starting from the default-constructed (empty) store reaches
no defined state at all — the delegated vector::pop_back on an empty
vector is undefined behavior — so the code does not establish the
invariant after that operation, refuting the claim as stated over all
sequences of either variant. -/
theorem size_le_capacity_counterexample :
    runMini? [OpMini.popBack] (Store.empty : Store Int) = none
    ∧ ¬ ∃ t : Store Int,
        runMini? [OpMini.popBack] (Store.empty : Store Int) = some t ∧ inv t := by
  constructor
  · rfl
  · intro h
    obtain ⟨t, ht, -⟩ := h
    simp [runMini?, stepMini?, Mini.pop_back?, Store.empty] at ht

/-- C8 witness: the invariant after concrete operation sequences on
both variants, the minimal-variant run staying inside defined
behavior. -/
theorem size_le_capacity_invariant_witness :
    inv (runFull [OpFull.pushBack (1 : Int), OpFull.popBack, OpFull.insertAt 0 2]
      (Store.ofList [5]))
    ∧ inv (⟨[], 1⟩ : Store Int) :=
  ⟨size_le_capacity_invariant.2.2.2.1 (Store.ofList [5]) (by decide)
    [OpFull.pushBack 1, OpFull.popBack, OpFull.insertAt 0 2],
   size_le_capacity_invariant.2.2.2.2 Store.empty (by decide)
    [OpMini.pushFront 3, OpMini.popBack] ⟨[], 1⟩ (by decide)⟩

/-- C10 witness: average of the empty store is 0, average of [1,2] is
its sum over its size. -/
theorem mini_average_total_witness :
    Mini.average (Store.empty : Store Int) = 0
    ∧ Mini.average (Store.ofList [1, 2])
        = (Mini.sum (Store.ofList [1, 2]) : Rat)
          / ((Store.ofList ([1, 2] : List Int)).data.length : Rat) :=
  ⟨mini_average_total.1 Store.empty rfl,
   mini_average_total.2.1 (Store.ofList [1, 2]) (by decide)⟩

end AdvStore
